import Mathlib

/-!
Verification of the natural-language specification of the crab-llvm CFG builder
(`src/lib/CrabLlvm/CfgBuilder.cc`) against a shallow embedding of its code.

The embedding follows the source closely:
* `z_lin_exp_t` values produced by `SymEval::lookup` are either an integer
  constant or a single symbolic variable; they are embedded as `Operand`.
* `z_lin_cst_t` constraints built by the builder always relate two such
  operands; they are embedded as `LinCst`, whose `negate` has the semantics
  the external ikos constraint library documents (sat (negate c) iff not sat c).
* Crab CFG statements appended by the visitors are embedded as `Stmt`, with a
  big-step execution relation `Exec` (havoc is nondeterministic, assume filters).
* Machine-width artifacts of the C++ are made explicit: the 32-bit `unsigned`
  accumulator of the shift lowering is embedded with an explicit `% 2^32`.
-/

namespace CrabLlvm

/-- Symbolic variable names issued by the `VariableFactory`, embedded as `Nat`. -/
abbrev Var := Nat

/-- Result of `SymEval::lookup`: an integer constant (from a `ConstantInt`) or a
single symbolic variable (for a tracked SSA value).  Modelled from the spec:
`SymEval.hh` is not under `src/`; section 4.1 of the spec states `lookup` returns
a constant expression for integer constants, a variable expression for tracked
SSA values, and none otherwise. -/
inductive Operand where
  | const (c : Int)
  | var (v : Var)
deriving DecidableEq, Repr

/-- Value of an operand in a state. -/
def Operand.eval (σ : Var → Int) : Operand → Int
  | .const c => c
  | .var v => σ v

/-- Embeds `isVar` on linear expressions (single variable, coefficient 1). -/
def Operand.isVar : Operand → Bool
  | .var _ => true
  | .const _ => false

/-- Embeds `is_constant ()` on linear expressions. -/
def Operand.isConst : Operand → Bool
  | .const _ => true
  | .var _ => false

/-- Embeds `constant ()` on linear expressions (meaningful when `isConst`). -/
def Operand.constVal : Operand → Int
  | .const c => c
  | .var _ => 0

/-- Embedding of the `z_lin_cst_t` constraints the builder constructs.  Every
constraint built in `CfgBuilder.cc` relates two operands:
`cle a b k` is `a ≤ b + k`, `ceq a b` is `a = b`, `cneq a b` is `a ≠ b`. -/
inductive LinCst where
  | cle (a b : Operand) (k : Int)
  | ceq (a b : Operand)
  | cneq (a b : Operand)
deriving DecidableEq, Repr

/-- Satisfaction of a constraint in a state. -/
def LinCst.sat (σ : Var → Int) : LinCst → Prop
  | .cle a b k => a.eval σ ≤ b.eval σ + k
  | .ceq a b => a.eval σ = b.eval σ
  | .cneq a b => a.eval σ ≠ b.eval σ

instance (σ : Var → Int) : (c : LinCst) → Decidable (c.sat σ)
  | .cle a b k => inferInstanceAs (Decidable (a.eval σ ≤ b.eval σ + k))
  | .ceq a b => inferInstanceAs (Decidable (a.eval σ = b.eval σ))
  | .cneq a b => inferInstanceAs (Decidable (a.eval σ ≠ b.eval σ))

/-- Embeds `z_lin_cst_t::negate ()` of the external ikos library: the negation
of `a ≤ b + k` over the integers is `a ≥ b + k + 1`, i.e. `b ≤ a - k - 1`. -/
def LinCst.negate : LinCst → LinCst
  | .cle a b k => .cle b a (-k - 1)
  | .ceq a b => .cneq a b
  | .cneq a b => .ceq a b

/-- Satisfaction of a whole constraint system (`z_lin_cst_sys_t` is a conjunction). -/
def satAll (σ : Var → Int) (l : List LinCst) : Prop := ∀ c ∈ l, c.sat σ

instance (σ : Var → Int) (l : List LinCst) : Decidable (satAll σ l) :=
  List.decidableBAll _ l

/-- The `llvm::CmpInst` predicates handled by the builder (`FCMP` stands for all
floating-point predicates, which fall through every integer switch). -/
inductive Pred where
  | EQ | NE | UGT | UGE | ULT | ULE | SGT | SGE | SLT | SLE | FCMP
deriving DecidableEq, Repr

/-- A compare instruction: predicate plus the identities of its two IR operand
values (fed to `lookup`). -/
structure CmpI where
  pred : Pred
  op0 : Nat
  op1 : Nat
deriving DecidableEq, Repr

/-- Embeds `SymExecConditionVisitor::normalizeCmpInst` (CfgBuilder.cc:144-153).
The C++ calls `CmpInst::swapOperands ()`, which swaps the operands *and*
replaces the predicate by its swapped form, in place, on the input IR
instruction; the returned compare is the post-state of that mutation. -/
def normalizeCmpInst (c : CmpI) : CmpI :=
  match c.pred with
  | .UGT => ⟨.ULT, c.op1, c.op0⟩
  | .SGT => ⟨.SLT, c.op1, c.op0⟩
  | .UGE => ⟨.ULE, c.op1, c.op0⟩
  | .SGE => ⟨.SLE, c.op1, c.op0⟩
  | _ => c

/-- Unsigned lower bounds emitted for `ICMP_ULT` / `ICMP_ULE`
(CfgBuilder.cc:184-188, 195-199): `op ≥ 0` for each operand that is a variable. -/
def ubounds (a b : Operand) : List LinCst :=
  (if a.isVar then [.cle (.const 0) a 0] else []) ++
  (if b.isVar then [.cle (.const 0) b 0] else [])

/-- Constraints of the `ICMP_SLT` case (CfgBuilder.cc:189-194):
non-negated `a ≤ b - 1`, negated `a ≥ b`. -/
def sltCsts (is_negated : Bool) (a b : Operand) : List LinCst :=
  if is_negated then [.cle b a 0] else [.cle a b (-1)]

/-- Constraints of the `ICMP_SLE` case (CfgBuilder.cc:200-205):
non-negated `a ≤ b`, negated `a ≥ b + 1`. -/
def sleCsts (is_negated : Bool) (a b : Operand) : List LinCst :=
  if is_negated then [.cle b a (-1)] else [.cle a b 0]

/-- Body of `gen_assertion` after the `normalizeCmpInst` call
(CfgBuilder.cc:160-209).  The `ULT`/`ULE` cases deliberately fall through to
`SLT`/`SLE` in the C++ switch, hence the `ubounds ++ ...` concatenation.
Predicates that cannot survive normalization hit `assert (false)`; they yield
the (empty) system `res` built so far. -/
def gen_core (is_negated : Bool) (lk : Nat → Option Operand) (c : CmpI) : List LinCst :=
  match lk c.op0, lk c.op1 with
  | some a, some b =>
    match c.pred with
    | .EQ => if is_negated then [.cneq a b] else [.ceq a b]
    | .NE => if is_negated then [.ceq a b] else [.cneq a b]
    | .ULT => ubounds a b ++ sltCsts is_negated a b
    | .SLT => sltCsts is_negated a b
    | .ULE => ubounds a b ++ sleCsts is_negated a b
    | .SLE => sleCsts is_negated a b
    | _ => []
  | _, _ => []

/-- Embeds `SymExecConditionVisitor::gen_assertion` (CfgBuilder.cc:155-210):
normalize the compare in place, then emit constraints under the polarity
`is_negated` (the visitor member `m_is_negated`). -/
def gen_assertion (is_negated : Bool) (lk : Nat → Option Operand) (c : CmpI) : List LinCst :=
  gen_core is_negated lk (normalizeCmpInst c)

/-- Meaning of a compare predicate in the modeled integer domain. -/
def Pred.denote : Pred → Int → Int → Prop
  | .EQ, x, y => x = y
  | .NE, x, y => x ≠ y
  | .ULT, x, y => x < y
  | .SLT, x, y => x < y
  | .ULE, x, y => x ≤ y
  | .SLE, x, y => x ≤ y
  | .UGT, x, y => y < x
  | .SGT, x, y => y < x
  | .UGE, x, y => y ≤ x
  | .SGE, x, y => y ≤ x
  | .FCMP, _, _ => True

instance : (p : Pred) → (x y : Int) → Decidable (p.denote x y)
  | .EQ, x, y => inferInstanceAs (Decidable (x = y))
  | .NE, x, y => inferInstanceAs (Decidable (x ≠ y))
  | .UGT, x, y => inferInstanceAs (Decidable (y < x))
  | .UGE, x, y => inferInstanceAs (Decidable (y ≤ x))
  | .ULT, x, y => inferInstanceAs (Decidable (x < y))
  | .ULE, x, y => inferInstanceAs (Decidable (x ≤ y))
  | .SGT, x, y => inferInstanceAs (Decidable (y < x))
  | .SGE, x, y => inferInstanceAs (Decidable (y ≤ x))
  | .SLT, x, y => inferInstanceAs (Decidable (x < y))
  | .SLE, x, y => inferInstanceAs (Decidable (x ≤ y))
  | .FCMP, _, _ => inferInstanceAs (Decidable True)

/-- Truth value of a compare instruction in a state (when either operand fails
`lookup` the compare is unconstrained and the default is the trivial `True`). -/
def CmpI.holds (lk : Nat → Option Operand) (σ : Var → Int) (c : CmpI) : Prop :=
  match lk c.op0, lk c.op1 with
  | some a, some b => c.pred.denote (a.eval σ) (b.eval σ)
  | _, _ => True

instance (lk : Nat → Option Operand) (σ : Var → Int) (c : CmpI) :
    Decidable (c.holds lk σ) := by
  unfold CmpI.holds
  cases lk c.op0 <;> cases lk c.op1 <;> dsimp <;> infer_instance

/-- The Crab CFG statements appended by the visitors of `CfgBuilder.cc`. -/
inductive Stmt where
  | assign (v : Var) (e : Operand)
  | havoc (v : Var)
  | assumeC (c : LinCst)
  | addS (v : Var) (a b : Operand)
  | subS (v : Var) (a b : Operand)
  | mulS (v : Var) (a b : Operand)
  | divS (v : Var) (a b : Operand)
  | udivS (v : Var) (a b : Operand)
  | remS (v : Var) (a b : Operand)
  | uremS (v : Var) (a b : Operand)
  | select1 (v : Var) (c : LinCst) (a b : Operand)
  | selectV (v cond : Var) (a b : Operand)
  | callsite (ret : Option Var) (actuals : List Var)
deriving DecidableEq, Repr

/-- Pointwise state update. -/
def upd (σ : Var → Int) (v : Var) (z : Int) : Var → Int :=
  fun w => if w = v then z else σ w

/-- Big-step execution of a straight-line statement list.  Only the statement
kinds that occur in phi-edge blocks need rules: `assign`, `havoc` (any value)
and `assumeC` (filters states). -/
inductive Exec : List Stmt → (Var → Int) → (Var → Int) → Prop where
  | nil (σ : Var → Int) : Exec [] σ σ
  | assignS {v : Var} {e : Operand} {rest : List Stmt} {σ σ' : Var → Int}
      (h : Exec rest (upd σ v (Operand.eval σ e)) σ') :
      Exec (Stmt.assign v e :: rest) σ σ'
  | havocS {v : Var} {rest : List Stmt} {σ σ' : Var → Int} (z : Int)
      (h : Exec rest (upd σ v z) σ') :
      Exec (Stmt.havoc v :: rest) σ σ'
  | assumeS {c : LinCst} {rest : List Stmt} {σ σ' : Var → Int}
      (hc : c.sat σ) (h : Exec rest σ σ') :
      Exec (Stmt.assumeC c :: rest) σ σ'

/-- Variable written by a statement, if any (of the kinds `Exec` steps over). -/
def stmtWrites : Stmt → Option Var
  | .assign v _ => some v
  | .havoc v => some v
  | _ => none

/-- Constraints carried by the `assume` statements of a block, in order. -/
def assumedCsts : List Stmt → List LinCst
  | [] => []
  | .assumeC c :: rest => c :: assumedCsts rest
  | _ :: rest => assumedCsts rest

/-! ### Condition lowering: `SymExecConditionVisitor::visitBinaryOperator` -/

/-- Opcode class of the boolean binary instruction. -/
inductive BoolOp where
  | band | bor | bother
deriving DecidableEq, Repr

/-- An operand of the boolean instruction: its type (integer or not) and, when
it is a compare instruction, that compare (`dyn_cast<CmpInst>`). -/
structure CondOperand where
  tyInt : Bool
  asCmp : Option CmpI
deriving DecidableEq, Repr

/-- The guard of CfgBuilder.cc:234-237 / 242-245: the operand is inspected as a
compare only when its type is integer. -/
def condCmp (o : CondOperand) : Option CmpI :=
  if o.tyInt then o.asCmp else none

/-- A boolean-producing binary IR instruction as seen by the condition visitor. -/
structure BinBoolInst where
  op : BoolOp
  op0 : CondOperand
  op1 : CondOperand
  tracked : Bool
deriving DecidableEq, Repr

/-- Embeds `SymExecConditionVisitor::visitBinaryOperator` (CfgBuilder.cc:212-269).
`And` with non-negated polarity, or `Or` with negated polarity, inspects both
operands as compares; when both are compares every constraint of
`gen_assertion` (already generated under `m_is_negated`) is asserted, negated
once more when `m_is_negated` holds.  Other opcodes havoc the destination
if tracked and `LlvmIncludeHavoc` is set. -/
def visitBinaryOperatorCond (is_negated includeHavoc : Bool) (lk : Nat → Option Operand)
    (sym : Var) (I : BinBoolInst) : List Stmt :=
  let cs : Option CmpI × Option CmpI × List Stmt :=
    match I.op with
    | .band => if is_negated then (none, none, []) else (condCmp I.op0, condCmp I.op1, [])
    | .bor => if is_negated then (condCmp I.op0, condCmp I.op1, []) else (none, none, [])
    | .bother => (none, none, if I.tracked && includeHavoc then [Stmt.havoc sym] else [])
  match cs with
  | (some c1, some c2, pre) =>
    pre ++
    ((gen_assertion is_negated lk c1).map fun cst =>
      Stmt.assumeC (if is_negated then cst.negate else cst)) ++
    ((gen_assertion is_negated lk c2).map fun cst =>
      Stmt.assumeC (if is_negated then cst.negate else cst))
  | (_, _, pre) => pre

/-! ### Select lowering: `SymExecVisitor::visitSelectInst` -/

/-- The condition value of a select: a constant integer, a compare instruction,
or any other value. -/
inductive SelCond where
  | constInt (z : Int)
  | cmpCond (c : CmpI)
  | otherCond
deriving Repr

/-- Embeds `SymExecVisitor::visitSelectInst` (CfgBuilder.cc:819-864).  The
`includeHavoc` flag is accepted because the source consults it in the other
visitors, but `visitSelectInst` itself never havocs: when either operand of the
select fails `lookup`, the function returns before emitting anything. -/
def visitSelectInst (tracked noPtr tvInt fvInt includeHavoc : Bool)
    (lk : Nat → Option Operand) (cond : SelCond) (condVar : Var)
    (tv fv : Nat) (lhs : Var) : List Stmt :=
  if tracked = false then []
  else if noPtr && (!tvInt || !fvInt) then []
  else
    match lk tv, lk fv with
    | some op0, some op1 =>
      match cond with
      | .constInt z =>
        if z = 1 then [Stmt.assign lhs op0]
        else if z = 0 then [Stmt.assign lhs op1]
        else [Stmt.selectV lhs condVar op0 op1]
      | .cmpCond ci =>
        match gen_assertion false lk ci with
        | [single] => [Stmt.select1 lhs single op0 op1]
        | _ => [Stmt.selectV lhs condVar op0 op1]
      | .otherCond => [Stmt.selectV lhs condVar op0 op1]
    | _, _ => []

/-! ### Arithmetic lowering: `SymExecVisitor::doArithmetic` -/

/-- The binary opcodes routed to `doArithmetic` (CfgBuilder.cc:419-428). -/
inductive ArithOp where
  | add | sub | mul | sdiv | udiv | srem | urem | shl | ashr
deriving DecidableEq, Repr

/-- The `unsigned factor = 1; for (i < shift) factor *= 2;` loop of
CfgBuilder.cc:536-538 and 549-551: `unsigned` is 32 bits wide, so every
multiplication wraps modulo `2^32`. -/
def shlFactor : Nat → Nat
  | 0 => 1
  | n + 1 => shlFactor n * 2 % 4294967296

/-- Embeds `SymExecVisitor::doArithmetic` (CfgBuilder.cc:442-562).  Faithful
for shift amounts `0 ≤ k < 2^31` (the `(int) k` cast is the identity there and
the `assert (shift >= 0)` passes). -/
def doArithmetic (op : ArithOp) (includeHavoc : Bool) (lhs : Var)
    (o1 o2 : Option Operand) : List Stmt :=
  match o1, o2 with
  | some op1, some op2 =>
    match op with
    | .add => [Stmt.addS lhs op1 op2]
    | .sub =>
      if op1.isConst then
        [Stmt.assign lhs (.const op1.constVal), Stmt.subS lhs (.var lhs) op2]
      else [Stmt.subS lhs op1 op2]
    | .mul => [Stmt.mulS lhs op1 op2]
    | .sdiv =>
      if op1.isConst then
        [Stmt.assign lhs (.const op1.constVal), Stmt.divS lhs (.var lhs) op2]
      else [Stmt.divS lhs op1 op2]
    | .udiv =>
      if op1.isConst && op2.isConst then
        if includeHavoc then [Stmt.havoc lhs] else []
      else if op1.isConst then
        [Stmt.assign lhs (.const op1.constVal), Stmt.udivS lhs (.var lhs) op2]
      else [Stmt.udivS lhs op1 op2]
    | .srem =>
      if op1.isConst then
        [Stmt.assign lhs (.const op1.constVal), Stmt.remS lhs (.var lhs) op2]
      else [Stmt.remS lhs op1 op2]
    | .urem =>
      if op1.isConst && op2.isConst then
        if includeHavoc then [Stmt.havoc lhs] else []
      else if op1.isConst then
        [Stmt.assign lhs (.const op1.constVal), Stmt.uremS lhs (.var lhs) op2]
      else [Stmt.uremS lhs op1 op2]
    | .shl =>
      match op2 with
      | .const k => [Stmt.mulS lhs op1 (.const (shlFactor k.toNat))]
      | .var _ => if includeHavoc then [Stmt.havoc lhs] else []
    | .ashr =>
      match op2 with
      | .const k => [Stmt.divS lhs op1 (.const (shlFactor k.toNat))]
      | .var _ => if includeHavoc then [Stmt.havoc lhs] else []
  | _, _ => []

/-! ### Call lowering: `SymExecVisitor::visitCallInst`, lines 1015-1080 -/

/-- Context of the general call-translation tail of `visitCallInst` (after the
special functions have been filtered out).  `refs`, `mods`, `news` carry the
symbolic variables (`symVar (a)`) of the arrays returned by
`MemAnalysis::getRefModNewArrays` at the call site. -/
structure CallEnv where
  isInterProc : Bool
  varArg : Bool
  trackedRet : Bool
  retVoid : Bool
  includeHavoc : Bool
  trackArr : Bool
  noPtr : Bool
  retTyUnk : Bool
  retTyInt : Bool
  refs : List Var
  mods : List Var
  news : List Var
deriving Repr

/-- Embeds CfgBuilder.cc:1015-1080.  `scalarStmts` and `scalarActuals` stand
for the statements and actual-parameter names produced by `normalizeParam` on
the scalar arguments (CfgBuilder.cc:1033-1044); fresh `a_in` snapshot names are
`ctr`, `ctr + 1`, ... . -/
def visitCallGeneric (env : CallEnv) (retVar : Var) (scalarStmts : List Stmt)
    (scalarActuals : List Var) (ctr : Nat) : List Stmt :=
  if !env.isInterProc || env.varArg then
    (if env.trackedRet && !env.retVoid && env.includeHavoc then [Stmt.havoc retVar] else [])
    ++ (if env.trackArr then env.mods.map Stmt.havoc else [])
  else
    let arrStmts : List Stmt :=
      if env.trackArr then
        (env.refs.enum.map fun p =>
          [Stmt.assign (ctr + p.1) (Operand.var p.2), Stmt.havoc p.2]).flatten
      else []
    let arrActuals : List Var :=
      if env.trackArr then
        env.refs.enum.map (fun p => ctr + p.1) ++ env.refs ++ env.news
      else []
    let ret : Option Var :=
      if !env.retTyUnk && env.trackedRet && (!env.noPtr || env.retTyInt) then some retVar
      else none
    scalarStmts ++ arrStmts ++ [Stmt.callsite ret (scalarActuals ++ arrActuals)]

/-! ### Return unification: `CfgBuilder::build_cfg`, lines 1317-1335 -/

/-- Embeds the return-unification step: given the returning blocks in function
order, produce the exit label (the CFG has a single exit slot, set by
`set_exit`) and the edges added to the synthetic unified block `freshL`. -/
def unify_rets (rets : List Nat) (freshL : Nat) : Option Nat × List (Nat × Nat) :=
  if rets.length = 1 then (rets.get? 0, [])
  else if 1 < rets.length then (some freshL, rets.map fun r => (r, freshL))
  else (none, [])

/-- The returning blocks are the blocks whose terminator is a `ReturnInst`,
collected in iteration order (CfgBuilder.cc:1277-1288). -/
def build_cfg_exit (blocks : List Nat) (isRet : Nat → Bool) (freshL : Nat) :
    Option Nat × List (Nat × Nat) :=
  unify_rets (blocks.filter isRet) freshL

/-! ### Helper `AllUsesAreNonTrackMem` (CfgBuilder.cc:83-110) -/

/-- Classification of a call's callee by name. -/
inductive Callee where
  | shadowMem
  | llvmDbg
  | otherFn (id : Nat)
  | indirect
deriving DecidableEq, Repr

/-- A use of a value, as the C++ loop classifies users: a store (with the type
of the stored value), a load (with its type), a call, a cast (with the uses of
the cast itself), or anything else. -/
inductive Use where
  | storeU (valTyInt : Bool)
  | loadU (tyInt : Bool)
  | callU (callee : Callee)
  | castU (us : List Use)
  | otherU

/-- Embeds `AllUsesAreNonTrackMem` (CfgBuilder.cc:83-110), iterating the uses
of `V`.  The initial `if (CastInst *CI = dyn_cast<CastInst> (V)) V = CI;` is an
identity assignment and strips nothing.  In the `CallInst` arm the C++
`continue`s for `llvm.dbg` / `shadow.mem` callees and otherwise falls off the
end of the `if`/`else if` chain, which also proceeds to the next use, so every
call is accepted; a cast or any other user hits the final `else return false`. -/
def allUsesAreNonTrackMem : List Use → Bool
  | [] => true
  | u :: rest =>
    match u with
    | .storeU valTyInt => if valTyInt then false else allUsesAreNonTrackMem rest
    | .loadU tyInt => if tyInt then false else allUsesAreNonTrackMem rest
    | .callU _ => allUsesAreNonTrackMem rest
    | .castU _ => false
    | .otherU => false

mutual
/-- The predicate claim C7 states, following the spec words: a use is
non-trackable iff it is a load/store of non-integer value type, a call to a
shadow-memory or debug function, or a cast all of whose own uses transitively
satisfy the same property. -/
def specNonTrackUse : Use → Bool
  | .storeU valTyInt => !valTyInt
  | .loadU tyInt => !tyInt
  | .callU .shadowMem => true
  | .callU .llvmDbg => true
  | .callU _ => false
  | .castU us => specNonTrackUses us
  | .otherU => false

/-- All uses satisfy `specNonTrackUse`. -/
def specNonTrackUses : List Use → Bool
  | [] => true
  | u :: rest => specNonTrackUse u && specNonTrackUses rest
end

/-- Per-use acceptance test actually implemented by the loop body of
`AllUsesAreNonTrackMem`. -/
def usePasses : Use → Bool
  | .storeU valTyInt => !valTyInt
  | .loadU tyInt => !tyInt
  | .callU _ => true
  | .castU _ => false
  | .otherU => false

/-! ### Phi lowering: `SymExecPhiVisitor::visitBasicBlock` (CfgBuilder.cc:315-372) -/

/-- The incoming value of a phi for the edge being translated: either the `j`-th
phi of the same block (`dyn_cast<PHINode>` whose parent is the block), or any
other value, identified by an id in the external lookup environment. -/
inductive IncVal where
  | phiIdx (j : Nat)
  | extVal (v : Nat)
deriving DecidableEq, Repr

/-- A leading phi node of the successor block: its symbolic variable
(`symVar (phi)`), trackedness, whether its type is integer, and its incoming
value for the edge. -/
structure PhiNode where
  name : Var
  tracked : Bool
  tyInt : Bool
  inc : IncVal
deriving Repr

/-- `SymEval::lookup` applied to an incoming value.  Modelled from the spec:
`SymEval.hh` is not under `src/`; a tracked SSA value (here a phi of the same
block) looks up to its symbolic variable, an untracked one to none; all other
values go through the external environment `ext`. -/
def incLookup (phis : List PhiNode) (ext : Nat → Option Operand) : IncVal → Option Operand
  | .phiIdx j =>
    match phis[j]? with
    | some p => if p.tracked then some (.var p.name) else none
    | none => none
  | .extVal v => ext v

/-- `SymEval::isTracked` applied to an incoming value (same environment split). -/
def incTracked (phis : List PhiNode) (extTrk : Nat → Bool) : IncVal → Bool
  | .phiIdx j =>
    match phis[j]? with
    | some p => p.tracked
    | none => false
  | .extVal v => extTrk v

/-- Association-list lookup used to embed the `DenseMap` `oldValMap`
(keys are the identities of same-block incoming phis). -/
def alookup : List (Nat × Var) → Nat → Option Var
  | [], _ => none
  | (k, v) :: rest, j => if k = j then some v else alookup rest j

/-- First pass of `visitBasicBlock` (CfgBuilder.cc:327-348): for each phi whose
incoming value is a tracked same-block phi not yet snapshotted, emit
`assign (fresh, lookup v)` and record `v ↦ fresh` in the map.  Fresh names from
`m_vfac.get ()` are `ctr`, `ctr + 1`, ...; statements are returned in emission
order rather than accumulated in the block, which is the same sequence. -/
def pass1 (phis : List PhiNode) (ext : Nat → Option Operand) (extTrk : Nat → Bool)
    (noPtr : Bool) : List PhiNode → List (Nat × Var) → Nat →
    List Stmt × List (Nat × Var) × Nat
  | [], map, ctr => ([], map, ctr)
  | p :: rest, map, ctr =>
    if incTracked phis extTrk p.inc = true then
      if (noPtr && !p.tyInt) = false then
        match p.inc with
        | .phiIdx j =>
          match incLookup phis ext (.phiIdx j) with
          | some x =>
            match alookup map j with
            | some _ => pass1 phis ext extTrk noPtr rest map ctr
            | none =>
              let r := pass1 phis ext extTrk noPtr rest (map ++ [(j, ctr)]) (ctr + 1)
              (Stmt.assign ctr x :: r.1, r.2)
          | none => pass1 phis ext extTrk noPtr rest map ctr
        | .extVal _ => pass1 phis ext extTrk noPtr rest map ctr
      else pass1 phis ext extTrk noPtr rest map ctr
    else pass1 phis ext extTrk noPtr rest map ctr

/-- Statements emitted for one phi in the second pass (CfgBuilder.cc:350-371):
use the snapshot map first, else `lookup`, else havoc. -/
def pass2head (phis : List PhiNode) (ext : Nat → Option Operand)
    (map : List (Nat × Var)) (noPtr : Bool) (p : PhiNode) : List Stmt :=
  if p.tracked = true then
    if (noPtr && !p.tyInt) = false then
      match (match p.inc with | .phiIdx j => alookup map j | .extVal _ => none) with
      | some old => [Stmt.assign p.name (.var old)]
      | none =>
        match incLookup phis ext p.inc with
        | some op => [Stmt.assign p.name op]
        | none => [Stmt.havoc p.name]
    else []
  else []

/-- Second pass over all leading phis, in declaration order. -/
def pass2 (phis : List PhiNode) (ext : Nat → Option Operand)
    (map : List (Nat × Var)) (noPtr : Bool) : List PhiNode → List Stmt
  | [] => []
  | p :: rest => pass2head phis ext map noPtr p ++ pass2 phis ext map noPtr rest

/-- Embeds `SymExecPhiVisitor::visitBasicBlock` on the edge block: the first
pass snapshots, the second assigns, in that order. -/
def visitPhiBlock (phis : List PhiNode) (ext : Nat → Option Operand)
    (extTrk : Nat → Bool) (noPtr : Bool) (ctr0 : Nat) : List Stmt :=
  let r := pass1 phis ext extTrk noPtr phis [] ctr0
  r.1 ++ pass2 phis ext r.2.1 noPtr phis

/-! ### Concrete inputs used by the counterexamples and witnesses -/

/-- Lookup environment of the C1 failing input: value 0 is the variable `x`,
value 1 the constant 0, value 2 the variable `y`, value 3 the constant 1. -/
def lkC1 : Nat → Option Operand := fun v =>
  if v = 0 then some (.var 0)
  else if v = 1 then some (.const 0)
  else if v = 2 then some (.var 1)
  else some (.const 1)

/-- `icmp eq x, 0`. -/
def cmpC1a : CmpI := ⟨.EQ, 0, 1⟩

/-- `icmp eq y, 1`. -/
def cmpC1b : CmpI := ⟨.EQ, 2, 3⟩

/-- `or i1 (icmp eq x 0), (icmp eq y 1)`, tracked, both operands integer. -/
def orInstC1 : BinBoolInst := ⟨.bor, ⟨true, some cmpC1a⟩, ⟨true, some cmpC1b⟩, true⟩

/-- State with `x = 0`, `y = 1`. -/
def σC1 : Var → Int := fun v => if v = 0 then 0 else 1

/-- Lookup of the C2 counterexample: value 0 is a variable, everything else the
constant 0. -/
def lkC2 : Nat → Option Operand := fun v =>
  if v = 0 then some (.var 0) else some (.const 0)

/-- `icmp ult x, 0` with `x` a variable. -/
def cmpC2 : CmpI := ⟨.ULT, 0, 1⟩

/-- Lookup of the C2 witness: every value id is that variable. -/
def lkC2w : Nat → Option Operand := fun v => some (.var v)

/-- `icmp slt x0, x1`. -/
def cmpC2w : CmpI := ⟨.SLT, 0, 1⟩

/-- All-zero state for the C2 witness. -/
def σC2w : Var → Int := fun _ => 0

/-- Call environment of the C4 counterexample: inter-procedural mode, direct
non-variadic callee, ARRAYS track level, mod set `{7}`, empty ref/new sets. -/
def envC4 : CallEnv :=
  ⟨true, false, false, true, true, true, false, true, false, [], [7], []⟩

/-- Call environment of the C4 witness: intra-procedural mode, ARRAYS track
level, mod set `{3, 4}`. -/
def envC4w : CallEnv :=
  ⟨false, false, true, false, true, true, false, true, false, [], [3, 4], []⟩

/-- Lookup environment that fails on every value (for the C10 witness). -/
def lkNoneW : Nat → Option Operand := fun _ => none

/-- Two mutually-referential phis of the same block:
`p0 = phi [p1, e]` with `symVar` 0 and `p1 = phi [p0, e]` with `symVar` 1. -/
def phisW : List PhiNode :=
  [⟨0, true, true, .phiIdx 1⟩, ⟨1, true, true, .phiIdx 0⟩]

/-- Empty external lookup for the phi witness. -/
def extW : Nat → Option Operand := fun _ => none

/-- Empty external trackedness for the phi witness. -/
def extTrkW : Nat → Bool := fun _ => false

/-- Initial state of the phi witness. -/
def sW0 : Var → Int := fun v => (v : Int)

/-- State after the first snapshot `assign 2, var 1`. -/
def sW1 : Var → Int := upd sW0 2 (Operand.eval sW0 (.var 1))

/-- State after the second snapshot `assign 3, var 0`. -/
def sW2 : Var → Int := upd sW1 3 (Operand.eval sW1 (.var 0))

/-- State after the second-pass `assign 0, var 2`. -/
def sW3 : Var → Int := upd sW2 0 (Operand.eval sW2 (.var 2))

/-- State after the second-pass `assign 1, var 3`. -/
def sW4 : Var → Int := upd sW3 1 (Operand.eval sW3 (.var 3))

/-! ## Theorems -/

/-- Claim C9: compare normalization is idempotent.  After one application only
`EQ`, `NE`, `ULT/SLT`, `ULE/SLE` (or a floating-point predicate, untouched)
remain, and the second application changes nothing. -/
theorem c9_normalize_idempotent (c : CmpI) :
    normalizeCmpInst (normalizeCmpInst c) = normalizeCmpInst c := by
  obtain ⟨p, o0, o1⟩ := c
  cases p <;> rfl

/-- Claim C6 counterexample: lowering the condition `icmp sgt v0, v1` mutates
the compare instruction in place (`CmpInst::swapOperands`), so the input IR is
not left identical: the post-state of the compare differs from its pre-state in
both predicate and operand order. -/
theorem c6_ir_immutable_cex :
    normalizeCmpInst ⟨Pred.SGT, 0, 1⟩ ≠ ⟨Pred.SGT, 0, 1⟩ := by decide

/-- Claim C6 amended: the only modification of the input IR is the in-place
normalization of compares: the normalized compare keeps the same operands (at
most swapped) and denotes the same truth value in the modeled integer domain. -/
theorem c6_normalize_equiv_amended (c : CmpI) (lk : Nat → Option Operand) (σ : Var → Int) :
    (CmpI.holds lk σ (normalizeCmpInst c) ↔ CmpI.holds lk σ c) ∧
    (((normalizeCmpInst c).op0 = c.op0 ∧ (normalizeCmpInst c).op1 = c.op1) ∨
      ((normalizeCmpInst c).op0 = c.op1 ∧ (normalizeCmpInst c).op1 = c.op0)) := by
  obtain ⟨p, o0, o1⟩ := c
  cases p <;>
    refine ⟨?_, by simp [normalizeCmpInst]⟩ <;>
    · unfold CmpI.holds normalizeCmpInst
      cases lk o0 <;> cases lk o1 <;> simp [Pred.denote]

/-- Claim C7 counterexample: a value whose single use is a call to an arbitrary
function `f` (neither `shadow.mem` nor `llvm.dbg`): the code returns `true`
(the call arm falls through the `if`/`else if` chain without rejecting), while
the claimed characterization says such a use must make the result `false`. -/
theorem c7_nontrackmem_cex :
    allUsesAreNonTrackMem [Use.callU (Callee.otherFn 0)] = true ∧
    specNonTrackUse (Use.callU (Callee.otherFn 0)) = false :=
  ⟨rfl, rfl⟩

/-- Claim C7 amended: `AllUsesAreNonTrackMem` returns true iff every use is a
store of a non-integer value, a load of non-integer type, or a call to ANY
callee (the shadow-memory/debug test is not a filter: other calls also fall
through); a cast or any other use makes it false regardless of the cast's own
uses. -/
theorem c7_nontrackmem_amended (us : List Use) :
    allUsesAreNonTrackMem us = true ↔ ∀ u ∈ us, usePasses u = true := by
  induction us with
  | nil => simp [allUsesAreNonTrackMem]
  | cons u rest ih =>
    cases u with
    | storeU t => cases t <;> simp [allUsesAreNonTrackMem, usePasses, ih]
    | loadU t => cases t <;> simp [allUsesAreNonTrackMem, usePasses, ih]
    | callU c => simp [allUsesAreNonTrackMem, usePasses, ih]
    | castU l => simp [allUsesAreNonTrackMem, usePasses]
    | otherU => simp [allUsesAreNonTrackMem, usePasses]

/-- Claim C8: `shl` by the constant 32 emits a multiplication by
`shlFactor 32 = 2^32 mod 2^32 = 0`, not by the exact power `2^32`: the 32-bit
`unsigned` accumulator of CfgBuilder.cc:536-538 overflows for shifts ≥ 32
(e.g. on an `i64` shift), so the emitted multiplier is not `2^k` for every
`k ≥ 0`. -/
theorem c8_shl_factor_bug :
    doArithmetic .shl true 5 (some (.var 1)) (some (.const 32)) =
      [Stmt.mulS 5 (.var 1) (.const 0)] ∧
    shlFactor 32 = 0 ∧ ¬ ((0 : Int) = 2 ^ 32) := by
  refine ⟨by decide, by decide, by norm_num⟩

/-- Duality of `gen_core` for normalized integer predicates without unsigned
lower bounds: the two polarities produce constraint systems that are each
other's semantic negations. -/
theorem gen_core_dual (lk : Nat → Option Operand) (n : CmpI) (a b : Operand) (σ : Var → Int)
    (h0 : lk n.op0 = some a) (h1 : lk n.op1 = some b)
    (hp : n.pred = .EQ ∨ n.pred = .NE ∨ n.pred = .ULT ∨ n.pred = .SLT ∨
      n.pred = .ULE ∨ n.pred = .SLE)
    (hub : (n.pred = .ULT ∨ n.pred = .ULE) → a.isVar = false ∧ b.isVar = false) :
    satAll σ (gen_core true lk n) ↔ ¬ satAll σ (gen_core false lk n) := by
  obtain ⟨p, o0, o1⟩ := n
  dsimp at h0 h1 hp hub
  cases p
  case EQ =>
    simp only [gen_core, h0, h1]
    simp [satAll, LinCst.sat]
  case NE =>
    simp only [gen_core, h0, h1]
    simp [satAll, LinCst.sat]
  case ULT =>
    obtain ⟨ha, hb⟩ := hub (Or.inl rfl)
    simp only [gen_core, h0, h1]
    simp [satAll, LinCst.sat, ubounds, sltCsts, ha, hb]
    omega
  case SLT =>
    simp only [gen_core, h0, h1]
    simp [satAll, LinCst.sat, sltCsts]
    omega
  case ULE =>
    obtain ⟨ha, hb⟩ := hub (Or.inr rfl)
    simp only [gen_core, h0, h1]
    simp [satAll, LinCst.sat, ubounds, sleCsts, ha, hb]
    omega
  case SLE =>
    simp only [gen_core, h0, h1]
    simp [satAll, LinCst.sat, sleCsts]
    omega
  all_goals simp at hp

/-- Every integer compare normalizes to one of the six handled predicates. -/
theorem normalize_pred_cases (c : CmpI) (h : c.pred ≠ Pred.FCMP) :
    (normalizeCmpInst c).pred = .EQ ∨ (normalizeCmpInst c).pred = .NE ∨
    (normalizeCmpInst c).pred = .ULT ∨ (normalizeCmpInst c).pred = .SLT ∨
    (normalizeCmpInst c).pred = .ULE ∨ (normalizeCmpInst c).pred = .SLE := by
  obtain ⟨p, o0, o1⟩ := c
  cases p <;> simp_all [normalizeCmpInst]

/-- Claim C2 counterexample: for `icmp ult x, 0` with `x` a tracked variable,
the non-negativity bound `x ≥ 0` is added under both polarities, so at `x = -1`
both constraint systems are unsatisfiable; the two systems are therefore not
each other's negations. -/
theorem c2_unsigned_duality_cex :
    ¬ (∀ σ : Var → Int, satAll σ (gen_assertion true lkC2 cmpC2) ↔
        ¬ satAll σ (gen_assertion false lkC2 cmpC2)) := by
  intro h
  have h2 := h fun _ => -1
  revert h2
  decide

/-- Claim C2 amended: the polarity-true and polarity-false constraint systems
of an integer compare are each other's semantic negations whenever no unsigned
lower bound is emitted, i.e. for `EQ`, `NE`, `SLT`, `SLE` (and the normalized
forms of `SGT`, `SGE`, `UGT`, `UGE`), and for `ULT`/`ULE` when neither operand
expression is a variable; duality fails only for unsigned compares with a
variable operand, whose `≥ 0` bounds appear under both polarities. -/
theorem c2_negation_duality_amended (lk : Nat → Option Operand) (c : CmpI)
    (a b : Operand) (σ : Var → Int)
    (h0 : lk (normalizeCmpInst c).op0 = some a)
    (h1 : lk (normalizeCmpInst c).op1 = some b)
    (hnf : c.pred ≠ Pred.FCMP)
    (hub : ((normalizeCmpInst c).pred = .ULT ∨ (normalizeCmpInst c).pred = .ULE) →
      a.isVar = false ∧ b.isVar = false) :
    satAll σ (gen_assertion true lk c) ↔ ¬ satAll σ (gen_assertion false lk c) :=
  gen_core_dual lk (normalizeCmpInst c) a b σ h0 h1 (normalize_pred_cases c hnf) hub

/-- Witness for the amended C2 at `icmp slt x0, x1` in the all-zero state. -/
theorem c2_negation_duality_amended_w :
    satAll σC2w (gen_assertion true lkC2w cmpC2w) ↔
      ¬ satAll σC2w (gen_assertion false lkC2w cmpC2w) :=
  c2_negation_duality_amended lkC2w cmpC2w (.var 0) (.var 1) σC2w rfl rfl
    (by decide) (by decide)

/-- Claim C1: on the false edge of a branch on `or (icmp eq x 0) (icmp eq y 1)`
the code emits `assume (x = 0)` and `assume (y = 1)`: `gen_assertion` already
generates the negated constraints (member `m_is_negated`), and
`visitBinaryOperator` negates each once more, so the emitted system is the
original disjuncts' conjunction, not `x ≠ 0 ∧ y ≠ 1`.  The state
`x = 0, y = 1` satisfies every emitted assume while the required
`¬c1 ∧ ¬c2` fails there, so the emitted system is not semantically equivalent
to the negation of the disjunction. -/
theorem c1_or_negated_double_negation :
    visitBinaryOperatorCond true true lkC1 9 orInstC1 =
      [Stmt.assumeC (.ceq (.var 0) (.const 0)), Stmt.assumeC (.ceq (.var 1) (.const 1))] ∧
    satAll σC1 (assumedCsts (visitBinaryOperatorCond true true lkC1 9 orInstC1)) ∧
    ¬ (¬ CmpI.holds lkC1 σC1 cmpC1a ∧ ¬ CmpI.holds lkC1 σC1 cmpC1b) := by
  refine ⟨by decide, by decide, by decide⟩

/-- Claim C10: for a tracked select, when the lookup of the true value or of
the false value fails, the translator emits no statement at all — no
assignment, no select, no havoc — whatever the `include_havoc` option says. -/
theorem c10_select_lookup_fail_silent (noPtr tvInt fvInt includeHavoc : Bool)
    (lk : Nat → Option Operand) (cond : SelCond) (condVar : Var)
    (tv fv : Nat) (lhs : Var)
    (hfail : lk tv = none ∨ lk fv = none) :
    visitSelectInst true noPtr tvInt fvInt includeHavoc lk cond condVar tv fv lhs = [] := by
  unfold visitSelectInst
  rcases hfail with h | h <;>
    rcases htv : lk tv with _ | o0 <;> rcases hfv : lk fv with _ | o1 <;>
    simp_all

/-- Witness for C10: a tracked select whose operands both fail lookup emits
nothing even with `include_havoc` on. -/
theorem c10_select_lookup_fail_silent_w :
    lkNoneW 0 = none ∧
    visitSelectInst true false true true true lkNoneW .otherCond 7 0 1 5 = [] :=
  ⟨rfl, c10_select_lookup_fail_silent false true true true lkNoneW .otherCond 7 0 1 5
    (Or.inl rfl)⟩

/-- Claim C5: for a function with at least one returning block the translation
sets exactly one exit (the CFG carries a single exit slot, embedded as the
`Option` component): with a single returning block that block is the exit, and
with two or more a synthetic unification block is created, every returning
block gains an edge to it, and it is marked as the exit. -/
theorem c5_single_exit (blocks : List Nat) (isRet : Nat → Bool) (freshL : Nat)
    (hne : blocks.filter isRet ≠ []) :
    (build_cfg_exit blocks isRet freshL).1.isSome = true ∧
    ((blocks.filter isRet).length = 1 →
      (build_cfg_exit blocks isRet freshL).1 = (blocks.filter isRet).get? 0) ∧
    (2 ≤ (blocks.filter isRet).length →
      (build_cfg_exit blocks isRet freshL).1 = some freshL ∧
      ∀ r ∈ blocks.filter isRet, (r, freshL) ∈ (build_cfg_exit blocks isRet freshL).2) := by
  unfold build_cfg_exit unify_rets
  rcases hr : blocks.filter isRet with _ | ⟨b, rest⟩
  · exact absurd hr hne
  · rcases rest with _ | ⟨b2, rest2⟩
    · simp
    · refine ⟨by simp, by simp, fun _ => ⟨by simp, ?_⟩⟩
      intro r hrm
      have h1 : ¬ (b :: b2 :: rest2).length = 1 := by simp
      have h2 : 1 < (b :: b2 :: rest2).length := by
        simp only [List.length_cons]
        omega
      rw [if_neg h1, if_pos h2]
      exact List.mem_map.mpr ⟨r, hrm, rfl⟩

/-- Witness for C5 on the blocks `[0, 1, 2]` where blocks 1 and 2 return. -/
theorem c5_single_exit_w :
    [0, 1, 2].filter (fun b => decide (0 < b)) ≠ [] ∧
    ((build_cfg_exit [0, 1, 2] (fun b => decide (0 < b)) 99).1.isSome = true ∧
      (([0, 1, 2].filter (fun b => decide (0 < b))).length = 1 →
        (build_cfg_exit [0, 1, 2] (fun b => decide (0 < b)) 99).1 =
          ([0, 1, 2].filter (fun b => decide (0 < b))).get? 0) ∧
      (2 ≤ ([0, 1, 2].filter (fun b => decide (0 < b))).length →
        (build_cfg_exit [0, 1, 2] (fun b => decide (0 < b)) 99).1 = some 99 ∧
        ∀ r ∈ [0, 1, 2].filter (fun b => decide (0 < b)),
          (r, 99) ∈ (build_cfg_exit [0, 1, 2] (fun b => decide (0 < b)) 99).2)) :=
  ⟨by decide, c5_single_exit [0, 1, 2] (fun b => decide (0 < b)) 99 (by decide)⟩

/-- Claim C4 counterexample: an inter-procedural, non-variadic call site in
ARRAYS mode with mod set `{7}`: a `callsite` statement is emitted but no havoc
of array 7 is emitted at all, let alone after the callsite. -/
theorem c4_mod_havoc_cex :
    7 ∈ envC4.mods ∧
    visitCallGeneric envC4 0 [] [] 100 = [Stmt.callsite none []] ∧
    Stmt.havoc 7 ∉ visitCallGeneric envC4 0 [] [] 100 := by
  refine ⟨by decide, by decide, by decide⟩

/-- Claim C4 amended: in ARRAYS mode the mod-set arrays of a call site are
havocked only on the branch that emits *no* callsite statement (intra-
procedural mode or variadic callee), where they follow the optional
return-value havoc; on the branch that emits a callsite (inter-procedural,
non-variadic, direct callee) the callsite is the final statement of the
emitted sequence and no mod-set havoc follows it (ref arrays are snapshotted
and havocked *before* the callsite instead). -/
theorem c4_mod_havoc_amended (env : CallEnv) (retVar : Var) (scalarStmts : List Stmt)
    (scalarActuals : List Var) (ctr : Nat)
    (harr : env.trackArr = true) :
    ((env.isInterProc = false ∨ env.varArg = true) →
      (∀ m ∈ env.mods, Stmt.havoc m ∈ visitCallGeneric env retVar scalarStmts scalarActuals ctr) ∧
      (∀ r acts, Stmt.callsite r acts ∉ visitCallGeneric env retVar scalarStmts scalarActuals ctr)) ∧
    (env.isInterProc = true → env.varArg = false →
      ∃ pre r acts, visitCallGeneric env retVar scalarStmts scalarActuals ctr =
        pre ++ [Stmt.callsite r acts]) := by
  constructor
  · intro hbr
    have hcond : (!env.isInterProc || env.varArg) = true := by
      rcases hbr with h | h <;> simp [h]
    unfold visitCallGeneric
    rw [if_pos hcond]
    constructor
    · intro m hm
      exact List.mem_append.mpr (Or.inr (by
        rw [if_pos harr]
        exact List.mem_map.mpr ⟨m, hm, rfl⟩))
    · intro r acts hmem
      rcases List.mem_append.mp hmem with h | h
      · rcases henv : (env.trackedRet && !env.retVoid && env.includeHavoc) with _ | _ <;>
          simp [henv] at h
      · rw [if_pos harr] at h
        rcases List.mem_map.mp h with ⟨m, _, hEq⟩
        exact Stmt.noConfusion hEq
  · intro hip hva
    have hcond : (!env.isInterProc || env.varArg) = false := by simp [hip, hva]
    unfold visitCallGeneric
    rw [if_neg (by simp [hcond])]
    exact ⟨_, _, _, by rw [List.append_assoc]⟩

/-- Witness for the amended C4: an intra-procedural call in ARRAYS mode with
mod set `{3, 4}` havocs array 3 and emits no callsite. -/
theorem c4_mod_havoc_amended_w :
    envC4w.trackArr = true ∧
    Stmt.havoc 3 ∈ visitCallGeneric envC4w 0 [] [] 50 ∧
    Stmt.callsite none [] ∉ visitCallGeneric envC4w 0 [] [] 50 :=
  ⟨rfl,
    ((c4_mod_havoc_amended envC4w 0 [] [] 50 rfl).1 (Or.inl rfl)).1 3 (by decide),
    ((c4_mod_havoc_amended envC4w 0 [] [] 50 rfl).1 (Or.inl rfl)).2 none []⟩

/-! ### Lemmas about `Exec` and the phi lowering -/

/-- Updating at `v` leaves other variables unchanged. -/
theorem upd_other {σ : Var → Int} {v w : Var} {z : Int} (h : w ≠ v) :
    upd σ v z w = σ w := by
  simp [upd, h]

/-- Updating at `v` stores `z` at `v`. -/
theorem upd_same (σ : Var → Int) (v : Var) (z : Int) : upd σ v z v = z := by
  simp [upd]

/-- Executing a concatenation decomposes into the two pieces. -/
theorem exec_append : ∀ (l1 l2 : List Stmt) (σ σ'' : Var → Int),
    Exec (l1 ++ l2) σ σ'' → ∃ σ', Exec l1 σ σ' ∧ Exec l2 σ' σ'' := by
  intro l1
  induction l1 with
  | nil => exact fun l2 σ σ'' h => ⟨σ, .nil σ, h⟩
  | cons s l1 ih =>
    intro l2 σ σ'' h
    cases h with
    | assignS h' =>
      obtain ⟨σm, h1, h2⟩ := ih l2 _ _ h'
      exact ⟨σm, .assignS h1, h2⟩
    | havocS z h' =>
      obtain ⟨σm, h1, h2⟩ := ih l2 _ _ h'
      exact ⟨σm, .havocS z h1, h2⟩
    | assumeS hc h' =>
      obtain ⟨σm, h1, h2⟩ := ih l2 _ _ h'
      exact ⟨σm, .assumeS hc h1, h2⟩

/-- A variable written by no statement of the list keeps its value. -/
theorem exec_frame {l : List Stmt} {σ σ' : Var → Int} (h : Exec l σ σ') :
    ∀ v, (∀ s ∈ l, stmtWrites s ≠ some v) → σ' v = σ v := by
  induction h with
  | nil => exact fun v _ => rfl
  | @assignS w e rest σ0 σ0' _ ih =>
    intro v hv
    have hw : w ≠ v := by
      intro hEq
      exact hv _ (List.mem_cons_self _ _) (by simp [stmtWrites, hEq])
    rw [ih v fun s hs => hv s (List.mem_cons_of_mem _ hs), upd_other (Ne.symm hw)]
  | @havocS w rest σ0 σ0' z _ ih =>
    intro v hv
    have hw : w ≠ v := by
      intro hEq
      exact hv _ (List.mem_cons_self _ _) (by simp [stmtWrites, hEq])
    rw [ih v fun s hs => hv s (List.mem_cons_of_mem _ hs), upd_other (Ne.symm hw)]
  | @assumeS c rest σ0 σ0' _ _ ih =>
    exact fun v hv => ih v fun s hs => hv s (List.mem_cons_of_mem _ hs)

/-- Lookup in an extended association list finds old bindings first. -/
theorem alookup_append_some {m1 : List (Nat × Var)} (m2 : List (Nat × Var)) {j : Nat} {f : Var}
    (h : alookup m1 j = some f) : alookup (m1 ++ m2) j = some f := by
  induction m1 with
  | nil => simp [alookup] at h
  | cons kv rest ih =>
    obtain ⟨k, v⟩ := kv
    by_cases hk : k = j
    · simpa [alookup, hk] using h
    · rw [List.cons_append, alookup, if_neg hk]
      rw [alookup, if_neg hk] at h
      exact ih h

/-- Lookup in an extended association list falls back to the extension. -/
theorem alookup_append_none {m1 : List (Nat × Var)} (m2 : List (Nat × Var)) {j : Nat}
    (h : alookup m1 j = none) : alookup (m1 ++ m2) j = alookup m2 j := by
  induction m1 with
  | nil => rfl
  | cons kv rest ih =>
    obtain ⟨k, v⟩ := kv
    by_cases hk : k = j
    · rw [alookup, if_pos hk] at h
      exact absurd h (by simp)
    · rw [alookup, if_neg hk] at h
      rw [List.cons_append, alookup, if_neg hk]
      exact ih h

/-- Inversion of `incLookup` on a same-block phi. -/
theorem incLookup_phi_some {phis : List PhiNode} {ext : Nat → Option Operand}
    {j : Nat} {x : Operand} (h : incLookup phis ext (.phiIdx j) = some x) :
    ∃ q, phis[j]? = some q ∧ q.tracked = true ∧ x = .var q.name := by
  have h' : (match phis[j]? with
      | some p => if p.tracked = true then some (Operand.var p.name) else none
      | none => none) = some x := h
  rcases hg : phis[j]? with _ | q
  · rw [hg] at h'
    exact absurd h' (by simp)
  · rw [hg] at h'
    change (if q.tracked = true then some (Operand.var q.name) else none) = some x at h'
    rcases ht : q.tracked with _ | _
    · rw [ht] at h'
      exact absurd h' (by simp)
    · rw [ht] at h'
      simp only [if_true, Option.some.injEq] at h'
      exact ⟨q, rfl, ht, h'.symm⟩

/-- Entries already in the snapshot map survive the first pass. -/
theorem pass1_map_mono (phis : List PhiNode) (ext : Nat → Option Operand)
    (extTrk : Nat → Bool) (noPtr : Bool) :
    ∀ (rest : List PhiNode) (map : List (Nat × Var)) (ctr j : Nat) (f : Var),
      alookup map j = some f →
      alookup (pass1 phis ext extTrk noPtr rest map ctr).2.1 j = some f := by
  intro rest
  induction rest with
  | nil => intro map ctr j f h; exact h
  | cons p rest ih =>
    intro map ctr j f h
    rcases hT : incTracked phis extTrk p.inc with _ | _
    · simpa [pass1, hT] using ih map ctr j f h
    · rcases hTy : (noPtr && !p.tyInt) with _ | _
      · rcases hInc : p.inc with j0 | v0
        · have hT' : incTracked phis extTrk (IncVal.phiIdx j0) = true := by
            rw [← hInc]; exact hT
          rcases hL : incLookup phis ext (.phiIdx j0) with _ | x
          · simpa [pass1, hInc, hT', hTy, hL] using ih map ctr j f h
          · rcases hA : alookup map j0 with _ | old
            · have h' : alookup (map ++ [(j0, ctr)]) j = some f :=
                alookup_append_some _ h
              simpa [pass1, hInc, hT', hTy, hL, hA] using
                ih (map ++ [(j0, ctr)]) (ctr + 1) j f h'
            · simpa [pass1, hInc, hT', hTy, hL, hA] using ih map ctr j f h
        · simpa [pass1, hT, hTy, hInc] using ih map ctr j f h
      · simpa [pass1, hT, hTy] using ih map ctr j f h

/-- A phi traversed by the first pass whose incoming value is a tracked,
looked-up same-block phi ends up with a snapshot entry for that phi. -/
theorem pass1_find (phis : List PhiNode) (ext : Nat → Option Operand)
    (extTrk : Nat → Bool) (noPtr : Bool) :
    ∀ (rest : List PhiNode) (map : List (Nat × Var)) (ctr : Nat) (q : PhiNode) (j : Nat),
      q ∈ rest → q.inc = .phiIdx j →
      incTracked phis extTrk q.inc = true →
      (noPtr && !q.tyInt) = false →
      (incLookup phis ext q.inc).isSome = true →
      ∃ f, alookup (pass1 phis ext extTrk noPtr rest map ctr).2.1 j = some f := by
  intro rest
  induction rest with
  | nil =>
    intro map ctr q j hq
    simp at hq
  | cons p rest ih =>
    intro map ctr q j hq hqinc hqtr hqty hqlk
    rcases List.mem_cons.mp hq with hqp | hqm
    · subst hqp
      have hT' : incTracked phis extTrk (IncVal.phiIdx j) = true := by
        rw [← hqinc]; exact hqtr
      obtain ⟨x, hL⟩ : ∃ x, incLookup phis ext (IncVal.phiIdx j) = some x := by
        rw [← hqinc]; exact Option.isSome_iff_exists.mp hqlk
      rcases hA : alookup map j with _ | f0
      · refine ⟨ctr, ?_⟩
        have hin : alookup (map ++ [(j, ctr)]) j = some ctr := by
          rw [alookup_append_none _ hA]
          simp [alookup]
        have hmono := pass1_map_mono phis ext extTrk noPtr rest
          (map ++ [(j, ctr)]) (ctr + 1) j ctr hin
        simpa [pass1, hqinc, hT', hqty, hL, hA] using hmono
      · refine ⟨f0, ?_⟩
        have hmono := pass1_map_mono phis ext extTrk noPtr rest map ctr j f0 hA
        simpa [pass1, hqinc, hT', hqty, hL, hA] using hmono
    · rcases hT : incTracked phis extTrk p.inc with _ | _
      · simpa [pass1, hT] using ih map ctr q j hqm hqinc hqtr hqty hqlk
      · rcases hTy : (noPtr && !p.tyInt) with _ | _
        · rcases hInc : p.inc with j0 | v0
          · have hT' : incTracked phis extTrk (IncVal.phiIdx j0) = true := by
              rw [← hInc]; exact hT
            rcases hL : incLookup phis ext (.phiIdx j0) with _ | x
            · simpa [pass1, hInc, hT', hTy, hL] using
                ih map ctr q j hqm hqinc hqtr hqty hqlk
            · rcases hA : alookup map j0 with _ | old
              · simpa [pass1, hInc, hT', hTy, hL, hA] using
                  ih (map ++ [(j0, ctr)]) (ctr + 1) q j hqm hqinc hqtr hqty hqlk
              · simpa [pass1, hInc, hT', hTy, hL, hA] using
                  ih map ctr q j hqm hqinc hqtr hqty hqlk
          · simpa [pass1, hT, hTy, hInc] using
              ih map ctr q j hqm hqinc hqtr hqty hqlk
        · simpa [pass1, hT, hTy] using ih map ctr q j hqm hqinc hqtr hqty hqlk

/-- Semantic content of the first pass: it writes only fresh variables (so all
variables below the counter keep their value), and every snapshot variable in
the resulting map holds the *initial* value of the phi it snapshots. -/
theorem pass1_sem (phis : List PhiNode) (ext : Nat → Option Operand)
    (extTrk : Nat → Bool) (noPtr : Bool) (ctr0 : Nat)
    (hnames : ∀ q ∈ phis, q.name < ctr0) :
    ∀ (rest : List PhiNode) (map : List (Nat × Var)) (ctr : Nat) (σ σ' : Var → Int),
      ctr0 ≤ ctr →
      Exec (pass1 phis ext extTrk noPtr rest map ctr).1 σ σ' →
      (∀ v, v < ctr → σ' v = σ v) ∧
      (∀ j f, alookup (pass1 phis ext extTrk noPtr rest map ctr).2.1 j = some f →
        alookup map j = some f ∨
          (ctr ≤ f ∧ ∀ q, phis[j]? = some q → σ' f = σ q.name)) := by
  intro rest
  induction rest with
  | nil =>
    intro map ctr σ σ' _ hex
    have hσ : σ' = σ := by cases hex; rfl
    subst hσ
    exact ⟨fun v _ => rfl, fun j f hf => Or.inl hf⟩
  | cons p rest ih =>
    intro map ctr σ σ' hc hex
    rcases hT : incTracked phis extTrk p.inc with _ | _
    · simp only [pass1, hT] at hex ⊢
      simp at hex ⊢
      exact ih map ctr σ σ' hc hex
    · rcases hTy : (noPtr && !p.tyInt) with _ | _
      · rcases hInc : p.inc with j0 | v0
        · have hT' : incTracked phis extTrk (IncVal.phiIdx j0) = true := by
            rw [← hInc]; exact hT
          rcases hL : incLookup phis ext (.phiIdx j0) with _ | x
          · simp only [pass1, hInc, hT', hTy, hL] at hex ⊢
            simp at hex ⊢
            exact ih map ctr σ σ' hc hex
          · rcases hA : alookup map j0 with _ | old
            · -- the snapshot branch
              obtain ⟨q0, hq0, hq0t, hx⟩ := incLookup_phi_some hL
              subst hx
              have hq0n : q0.name < ctr0 := hnames q0 (List.getElem?_mem hq0)
              simp only [pass1, hInc, hT', hTy, hL, hA] at hex ⊢
              simp at hex ⊢
              cases hex with
              | assignS h1 =>
                obtain ⟨ih1, ih2⟩ := ih (map ++ [(j0, ctr)]) (ctr + 1)
                  (upd σ ctr (Operand.eval σ (.var q0.name))) σ' (by omega) h1
                constructor
                · intro v hv
                  rw [ih1 v (by omega), upd_other (by omega : v ≠ ctr)]
                · intro j f hf
                  rcases ih2 j f hf with hA' | ⟨hge, hq⟩
                  · rcases hmj : alookup map j with _ | f'
                    · have h2 : alookup [(j0, ctr)] j = some f := by
                        rw [← alookup_append_none [(j0, ctr)] hmj]
                        exact hA'
                      have hjj : j0 = j := by
                        by_contra hne
                        rw [alookup, if_neg hne] at h2
                        exact Option.noConfusion h2
                      have hcf : ctr = f := by
                        rw [alookup, if_pos hjj] at h2
                        exact Option.some.inj h2
                      subst hjj
                      subst hcf
                      right
                      refine ⟨le_refl _, ?_⟩
                      intro q hq'
                      rw [hq0] at hq'
                      obtain rfl := Option.some.inj hq'
                      rw [ih1 ctr (by omega), upd_same]
                      rfl
                    · have h3 := alookup_append_some [(j0, ctr)] hmj
                      rw [hA'] at h3
                      obtain rfl := Option.some.inj h3
                      exact Or.inl rfl
                  · right
                    refine ⟨by omega, ?_⟩
                    intro q hq'
                    have hqn : q.name < ctr0 := hnames q (List.getElem?_mem hq')
                    have hne : q.name ≠ ctr := Nat.ne_of_lt (Nat.lt_of_lt_of_le hqn hc)
                    rw [hq q hq', upd_other hne]
            · simp only [pass1, hInc, hT', hTy, hL, hA] at hex ⊢
              simp at hex ⊢
              exact ih map ctr σ σ' hc hex
        · simp only [pass1, hT, hTy, hInc] at hex ⊢
          simp at hex ⊢
          exact ih map ctr σ σ' hc hex
      · simp only [pass1, hT, hTy] at hex ⊢
        simp at hex ⊢
        exact ih map ctr σ σ' hc hex

/-- Every statement emitted for one phi in the second pass writes exactly that
phi's symbolic variable. -/
theorem pass2head_writes (phis : List PhiNode) (ext : Nat → Option Operand)
    (map : List (Nat × Var)) (noPtr : Bool) (p : PhiNode) :
    ∀ s ∈ pass2head phis ext map noPtr p, stmtWrites s = some p.name := by
  intro s hs
  unfold pass2head at hs
  split at hs
  · split at hs
    · split at hs
      · rw [List.mem_singleton] at hs
        subst hs
        rfl
      · split at hs
        · rw [List.mem_singleton] at hs
          subst hs
          rfl
        · rw [List.mem_singleton] at hs
          subst hs
          rfl
    · simp at hs
  · simp at hs

/-- Every statement of the second pass writes the name of some phi of the list. -/
theorem pass2_writes (phis : List PhiNode) (ext : Nat → Option Operand)
    (map : List (Nat × Var)) (noPtr : Bool) :
    ∀ (rest : List PhiNode) (s : Stmt), s ∈ pass2 phis ext map noPtr rest →
      ∃ q ∈ rest, stmtWrites s = some q.name := by
  intro rest
  induction rest with
  | nil =>
    intro s hs
    simp [pass2] at hs
  | cons p rest ih =>
    intro s hs
    rcases List.mem_append.mp (by simpa [pass2] using hs) with h | h
    · exact ⟨p, List.mem_cons_self _ _, pass2head_writes phis ext map noPtr p s h⟩
    · obtain ⟨q, hq, hw⟩ := ih s h
      exact ⟨q, List.mem_cons_of_mem _ hq, hw⟩

/-- A variable that is no phi's name is untouched by the second pass. -/
theorem pass2_frame {phis : List PhiNode} {ext : Nat → Option Operand}
    {map : List (Nat × Var)} {noPtr : Bool} {rest : List PhiNode}
    {σ σ' : Var → Int} (hex : Exec (pass2 phis ext map noPtr rest) σ σ')
    (v : Var) (hv : ∀ q ∈ rest, q.name ≠ v) : σ' v = σ v := by
  apply exec_frame hex
  intro s hs
  obtain ⟨q, hq, hw⟩ := pass2_writes phis ext map noPtr rest s hs
  rw [hw]
  simp [hv q hq]

/-- Semantic content of the second pass for a phi whose incoming value has a
snapshot: the phi's variable ends with the value the snapshot variable had when
the second pass started. -/
theorem pass2_target (phis : List PhiNode) (ext : Nat → Option Operand)
    (map : List (Nat × Var)) (noPtr : Bool) :
    ∀ (rest : List PhiNode) (σ σ' : Var → Int),
      Exec (pass2 phis ext map noPtr rest) σ σ' →
      ∀ (p : PhiNode) (j : Nat) (f : Var),
        p ∈ rest → p.tracked = true → (noPtr && !p.tyInt) = false →
        p.inc = .phiIdx j → alookup map j = some f →
        (∀ q ∈ rest, q.name ≠ f) →
        ((rest.map fun q => q.name).Nodup) →
        σ' p.name = σ f := by
  intro rest
  induction rest with
  | nil =>
    intro σ σ' _ p j f hp
    simp at hp
  | cons q0 rest ih =>
    intro σ σ' hex p j f hp htr hty hinc hmap hfns hnd
    have hex' : Exec (pass2head phis ext map noPtr q0 ++ pass2 phis ext map noPtr rest) σ σ' := by
      simpa [pass2] using hex
    obtain ⟨σm, h1, h2⟩ := exec_append _ _ _ _ hex'
    have hndc : (∀ x ∈ rest, ¬ x.name = q0.name) ∧
        (List.map (fun q => q.name) rest).Nodup := by simpa using hnd
    rcases List.mem_cons.mp hp with hpq | hpm
    · subst hpq
      have hhead : pass2head phis ext map noPtr p = [Stmt.assign p.name (.var f)] := by
        unfold pass2head
        rw [if_pos htr, if_pos hty, hinc]
        simp [hmap]
      rw [hhead] at h1
      cases h1 with
      | assignS h1' =>
        cases h1'
        have hnp : ∀ q ∈ rest, q.name ≠ p.name := hndc.1
        rw [pass2_frame h2 p.name hnp, upd_same]
        rfl
    · have hq0f : q0.name ≠ f := hfns q0 (List.mem_cons_self _ _)
      have hmf : σm f = σ f := by
        apply exec_frame h1
        intro s hs
        rw [pass2head_writes phis ext map noPtr q0 s hs]
        simp [hq0f]
      rw [ih σm σ' h2 p j f hpm htr hty hinc hmap
        (fun q hq => hfns q (List.mem_cons_of_mem _ hq)) hndc.2, hmf]

/-- Claim C3: parallel snapshot semantics of the phi lowering.  For two phis
`p₁`, `p₂` of the same block where `p₁`'s incoming value for the translated
edge is `p₂` (both tracked, `p₁` integer-typed if pointer arithmetic is
disabled), executing all statements the phi visitor appends to the edge block
leaves `sym_var (p₁)` holding the value `sym_var (p₂)` had *before* the edge
block ran — in particular before any second-pass assignment to `sym_var (p₂)`.
First-pass snapshots precede all second-pass assignments by construction of
`visitPhiBlock`, and each pass preserves phi declaration order.  Hypotheses:
phi names are pairwise distinct (SSA) and below the fresh-name counter. -/
theorem c3_parallel_phi_correct (phis : List PhiNode) (ext : Nat → Option Operand)
    (extTrk : Nat → Bool) (noPtr : Bool) (ctr0 : Nat) (i j : Nat) (pi pj : PhiNode)
    (hi : phis[i]? = some pi) (hj : phis[j]? = some pj)
    (hinc : pi.inc = .phiIdx j) (htri : pi.tracked = true) (htrj : pj.tracked = true)
    (hty : noPtr = true → pi.tyInt = true)
    (hnames : ∀ q ∈ phis, q.name < ctr0)
    (hnodup : (phis.map fun q => q.name).Nodup)
    (σ σ' : Var → Int)
    (hex : Exec (visitPhiBlock phis ext extTrk noPtr ctr0) σ σ') :
    σ' pi.name = σ pj.name := by
  have hmem : pi ∈ phis := List.getElem?_mem hi
  have htyc : (noPtr && !pi.tyInt) = false := by
    rcases hn : noPtr with _ | _
    · rfl
    · rw [hty hn]
      rfl
  have hitr : incTracked phis extTrk pi.inc = true := by
    rw [hinc]
    have hu : incTracked phis extTrk (IncVal.phiIdx j) =
        (match phis[j]? with | some p => p.tracked | none => false) := rfl
    rw [hu, hj]
    exact htrj
  have hilk : (incLookup phis ext pi.inc).isSome = true := by
    rw [hinc]
    have hu : incLookup phis ext (IncVal.phiIdx j) =
        (match phis[j]? with
          | some p => if p.tracked = true then some (Operand.var p.name) else none
          | none => none) := rfl
    rw [hu, hj]
    show (if pj.tracked = true then some (Operand.var pj.name) else none).isSome = true
    rw [if_pos htrj]
    rfl
  unfold visitPhiBlock at hex
  obtain ⟨σ1, h1, h2⟩ := exec_append _ _ _ _ hex
  obtain ⟨f, hf⟩ := pass1_find phis ext extTrk noPtr phis [] ctr0 pi j
    hmem hinc hitr htyc hilk
  obtain ⟨hlow, hmap⟩ := pass1_sem phis ext extTrk noPtr ctr0 hnames phis [] ctr0
    σ σ1 (le_refl ctr0) h1
  rcases hmap j f hf with hnil | ⟨hge, hq⟩
  · exact absurd hnil (by simp [alookup])
  · have h1f : σ1 f = σ pj.name := hq pj hj
    have hfns : ∀ q ∈ phis, q.name ≠ f :=
      fun q hqm => Nat.ne_of_lt (Nat.lt_of_lt_of_le (hnames q hqm) hge)
    rw [pass2_target phis ext (pass1 phis ext extTrk noPtr phis [] ctr0).2.1 noPtr phis
      σ1 σ' h2 pi j f hmem htri htyc hinc hf hfns hnodup, h1f]

/-- Execution of the statements the phi visitor emits for the two-phi swap. -/
theorem execPhiW : Exec (visitPhiBlock phisW extW extTrkW false 2) sW0 sW4 :=
  show Exec [Stmt.assign 2 (.var 1), Stmt.assign 3 (.var 0),
      Stmt.assign 0 (.var 2), Stmt.assign 1 (.var 3)] sW0 sW4 from
    .assignS (.assignS (.assignS (.assignS (.nil sW4))))

/-- Witness for C3 on the swap `p0 = phi [p1]`, `p1 = phi [p0]`: after the edge
block, `sym_var (p0)` holds the initial value of `sym_var (p1)`. -/
theorem c3_parallel_phi_correct_w : sW4 0 = sW0 1 :=
  c3_parallel_phi_correct phisW extW extTrkW false 2 0 1
    ⟨0, true, true, .phiIdx 1⟩ ⟨1, true, true, .phiIdx 0⟩
    rfl rfl rfl rfl rfl (fun h => by simp at h) (by decide) (by decide)
    sW0 sW4 execPhiW

end CrabLlvm
